import Mathlib

/-!
Verification of the chunked patch protocol of the `press` tool.

The definitions below are a shallow embedding of the Rust sources:
file contents are lists of characters, paths are strings, the
filesystem is an explicit association list, and the streaming XML
layer (the external `quick_xml` crate) is modelled as a list of
already-lexed events consumed by the same state machine the Rust
code runs.
-/

namespace Press

/-- Model of splitting a character list at every occurrence of `sep`
(the separators are dropped; `n + 1` segments for `n` separators). -/
def splitOnChar (sep : Char) : List Char → List (List Char)
  | [] => [[]]
  | c :: cs =>
    if c = sep then [] :: splitOnChar sep cs
    else
      match splitOnChar sep cs with
      | [] => [[c]]
      | l :: ls => (c :: l) :: ls

/-- Joining a list of lines with a newline character, the model of
Rust `Vec::join("\n")` (used both for lines and for chunk strings). -/
def joinLines : List (List Char) → List Char
  | [] => []
  | [l] => l
  | l :: l₂ :: ls => l ++ '\n' :: joinLines (l₂ :: ls)

theorem splitOnChar_ne_nil (sep : Char) (s : List Char) : splitOnChar sep s ≠ [] := by
  cases s with
  | nil => simp [splitOnChar]
  | cons c cs =>
    simp only [splitOnChar]
    split
    · simp
    · split <;> simp

theorem joinLines_cons_cons (a b : List Char) (l : List (List Char)) :
    joinLines (a :: b :: l) = a ++ '\n' :: joinLines (b :: l) := rfl

theorem joinLines_splitOnChar (s : List Char) :
    joinLines (splitOnChar '\n' s) = s := by
  induction s with
  | nil => rfl
  | cons c cs ih =>
    simp only [splitOnChar]
    split
    · next hc =>
      subst hc
      cases h : splitOnChar '\n' cs with
      | nil => exact absurd h (splitOnChar_ne_nil _ _)
      | cons l ls =>
        rw [h] at ih
        simp [joinLines, ih]
    · next hc =>
      cases h : splitOnChar '\n' cs with
      | nil => exact absurd h (splitOnChar_ne_nil _ _)
      | cons l ls =>
        rw [h] at ih
        cases ls with
        | nil => simpa [joinLines] using congrArg (c :: ·) ih
        | cons l₂ ls₂ => simpa [joinLines] using congrArg (c :: ·) ih

/-- Fuel-indexed helper for `chunksOf`; the fuel is always instantiated
with the list length, which bounds the recursion depth. -/
def chunksOfAux {α : Type} (n : Nat) : Nat → List α → List (List α)
  | _, [] => []
  | 0, _ :: _ => []
  | fuel + 1, x :: xs => (x :: xs.take (n - 1)) :: chunksOfAux n fuel (xs.drop (n - 1))

/-- Model of Rust `slice::chunks` for a positive chunk size: consecutive
groups of `n` elements, the last group possibly shorter.  (The Rust
function panics on `n = 0`; all call sites below either guard that case
or are wrapped in `rustChunks`.) -/
def chunksOf {α : Type} (n : Nat) (l : List α) : List (List α) :=
  chunksOfAux n l.length l

theorem chunksOfAux_nil {α : Type} (n : Nat) (fuel : Nat) :
    chunksOfAux (α := α) n fuel [] = [] := by
  cases fuel <;> rfl

theorem chunksOfAux_fuel {α : Type} (n : Nat) :
    ∀ (f₁ : Nat) (f₂ : Nat) (l : List α), l.length ≤ f₁ → l.length ≤ f₂ →
    chunksOfAux n f₁ l = chunksOfAux n f₂ l := by
  intro f₁
  induction f₁ with
  | zero =>
    intro f₂ l h₁ _
    have : l = [] := List.length_eq_zero.mp (Nat.le_zero.mp h₁)
    subst this
    rw [chunksOfAux_nil, chunksOfAux_nil]
  | succ f ih =>
    intro f₂ l h₁ h₂
    cases l with
    | nil => rw [chunksOfAux_nil, chunksOfAux_nil]
    | cons x xs =>
      cases f₂ with
      | zero => simp at h₂
      | succ g =>
        show (x :: xs.take (n - 1)) :: chunksOfAux n f (xs.drop (n - 1))
            = (x :: xs.take (n - 1)) :: chunksOfAux n g (xs.drop (n - 1))
        have hxs₁ : xs.length ≤ f := by simpa using h₁
        have hxs₂ : xs.length ≤ g := by simpa using h₂
        have hd : (xs.drop (n - 1)).length ≤ xs.length := by
          rw [List.length_drop]; omega
        exact congrArg (List.cons (x :: xs.take (n - 1)))
          (ih g (xs.drop (n - 1)) (le_trans hd hxs₁) (le_trans hd hxs₂))

theorem chunksOf_nil {α : Type} (n : Nat) : chunksOf (α := α) n [] = [] := rfl

theorem chunksOf_cons {α : Type} (n : Nat) (x : α) (xs : List α) :
    chunksOf n (x :: xs) = (x :: xs.take (n - 1)) :: chunksOf n (xs.drop (n - 1)) := by
  show (x :: xs.take (n - 1)) :: chunksOfAux n xs.length (xs.drop (n - 1))
      = (x :: xs.take (n - 1)) :: chunksOf n (xs.drop (n - 1))
  unfold chunksOf
  rw [chunksOfAux_fuel n xs.length (xs.drop (n - 1)).length (xs.drop (n - 1))
    (by rw [List.length_drop]; omega) (le_refl _)]

theorem joinLines_append (as bs : List (List Char)) (ha : as ≠ []) (hb : bs ≠ []) :
    joinLines (as ++ bs) = joinLines as ++ '\n' :: joinLines bs := by
  induction as with
  | nil => exact absurd rfl ha
  | cons a as ih =>
    cases as with
    | nil =>
      cases bs with
      | nil => exact absurd rfl hb
      | cons b bs => simp [joinLines]
    | cons a₂ as₂ =>
      have h₂ := ih (by simp)
      simp only [List.cons_append] at h₂ ⊢
      rw [joinLines_cons_cons, h₂, joinLines_cons_cons]
      simp [List.append_assoc]

theorem joinLines_chunksOf (n : Nat) (ls : List (List Char)) :
    joinLines ((chunksOf n ls).map joinLines) = joinLines ls := by
  generalize hk : ls.length = k
  induction k using Nat.strong_induction_on generalizing ls with
  | _ k ih =>
    cases ls with
    | nil => simp [chunksOf_nil]
    | cons x xs =>
      rw [chunksOf_cons]
      cases hd : xs.drop (n - 1) with
      | nil =>
        have htake : xs.take (n - 1) = xs := by
          have hlen : xs.length ≤ n - 1 := by
            have := congrArg List.length hd
            simp [List.length_drop] at this
            omega
          exact List.take_of_length_le hlen
        simp [chunksOf_nil, joinLines, htake]
      | cons y ys =>
        have hne : chunksOf n (y :: ys) ≠ [] := by rw [chunksOf_cons]; simp
        have hlt : (y :: ys).length < k := by
          have h1 : (y :: ys).length = xs.length - (n - 1) := by
            rw [← hd, List.length_drop]
          subst hk
          simp only [List.length_cons] at h1 ⊢
          omega
        have hrec := ih _ hlt (y :: ys) rfl
        have hmapne : (chunksOf n (y :: ys)).map joinLines ≠ [] := by
          simpa using hne
        calc joinLines (((x :: xs.take (n - 1)) :: chunksOf n (y :: ys)).map joinLines)
            = joinLines ([joinLines (x :: xs.take (n - 1))] ++ (chunksOf n (y :: ys)).map joinLines) := by
              simp
          _ = joinLines (x :: xs.take (n - 1)) ++ '\n' :: joinLines ((chunksOf n (y :: ys)).map joinLines) := by
              rw [joinLines_append _ _ (by simp) hmapne]; rfl
          _ = joinLines (x :: xs.take (n - 1)) ++ '\n' :: joinLines (y :: ys) := by rw [hrec]
          _ = joinLines ((x :: xs.take (n - 1)) ++ (y :: ys)) := by
              rw [joinLines_append _ _ (by simp) (by simp)]
          _ = joinLines (x :: xs) := by
              rw [show (x :: xs.take (n - 1)) ++ (y :: ys) = x :: (xs.take (n - 1) ++ (y :: ys)) from rfl]
              rw [← hd, List.take_append_drop]

/-- Model of stripping one trailing carriage return from a line segment,
as Rust `str::lines` does for segments terminated by a line feed. -/
def stripCR (l : List Char) : List Char :=
  match l.getLast? with
  | some c => if c = '\r' then l.dropLast else l
  | none => l

/-- Model of Rust `str::lines`: split at every line feed, drop the final
empty segment (so a trailing newline adds no line), and strip one
trailing carriage return from every segment that was terminated by a
line feed (the unterminated final segment keeps its characters). -/
def rustLines (s : List Char) : List (List Char) :=
  if (splitOnChar '\n' s).getLastD [] = [] then
    ((splitOnChar '\n' s).dropLast).map stripCR
  else
    ((splitOnChar '\n' s).dropLast).map stripCR ++ [(splitOnChar '\n' s).getLastD []]

theorem splitOnChar_cons (sep c : Char) (cs : List Char) :
    splitOnChar sep (c :: cs)
      = if c = sep then [] :: splitOnChar sep cs
        else match splitOnChar sep cs with
          | [] => [[c]]
          | l :: ls => (c :: l) :: ls := rfl

theorem splitOnChar_mem (sep : Char) (s : List Char) :
    ∀ l ∈ splitOnChar sep s, ∀ c ∈ l, c ∈ s := by
  induction s with
  | nil =>
    intro l hl c hc
    simp [splitOnChar] at hl
    subst hl
    simp at hc
  | cons a as ih =>
    intro l hl c hc
    rw [splitOnChar_cons] at hl
    by_cases ha : a = sep
    · rw [if_pos ha] at hl
      rw [List.mem_cons] at hl
      rcases hl with hl | hl
      · subst hl; simp at hc
      · exact List.mem_cons_of_mem _ (ih l hl c hc)
    · rw [if_neg ha] at hl
      cases hsp : splitOnChar sep as with
      | nil => exact absurd hsp (splitOnChar_ne_nil _ _)
      | cons m ms =>
        rw [hsp] at hl
        have hl₂ : l ∈ (a :: m) :: ms := hl
        rw [List.mem_cons] at hl₂
        rcases hl₂ with hl₂ | hl₂
        · subst hl₂
          rw [List.mem_cons] at hc
          rcases hc with hc | hc
          · simp [hc]
          · exact List.mem_cons_of_mem _ (ih m (by rw [hsp]; exact List.mem_cons_self _ _) c hc)
        · exact List.mem_cons_of_mem _ (ih l (by rw [hsp]; exact List.mem_cons_of_mem _ hl₂) c hc)

theorem stripCR_of_no_cr (l : List Char) (h : '\r' ∉ l) : stripCR l = l := by
  unfold stripCR
  cases hg : l.getLast? with
  | none => rfl
  | some c =>
    have hcmem : c ∈ l := by
      obtain ⟨hne, hc⟩ := List.mem_getLast?_eq_getLast (x := c) (by rw [hg]; rfl)
      rw [hc]
      exact List.getLast_mem hne
    have hcr : c ≠ '\r' := fun hcr => h (hcr ▸ hcmem)
    show (if c = '\r' then l.dropLast else l) = l
    rw [if_neg hcr]

theorem splitOnChar_getLast_ne_nil :
    ∀ (s : List Char), s ≠ [] → s.getLast? ≠ some '\n' →
    (splitOnChar '\n' s).getLastD [] ≠ [] := by
  intro s
  induction s with
  | nil => intro hne _; exact absurd rfl hne
  | cons c cs ih =>
    intro hne hlast
    cases cs with
    | nil =>
      have hc : c ≠ '\n' := by
        intro h
        exact hlast (by simp [h])
      rw [splitOnChar_cons, if_neg hc]
      show ([[c]] : List (List Char)).getLastD [] ≠ []
      simp [List.getLastD_eq_getLast?]
    | cons c₂ cs₂ =>
      have hlast₂ : (c₂ :: cs₂).getLast? ≠ some '\n' := by
        rw [List.getLast?_cons_cons] at hlast
        exact hlast
      have ih₂ := ih (by simp) hlast₂
      by_cases hc : c = '\n'
      · rw [splitOnChar_cons, if_pos hc]
        cases hsp : splitOnChar '\n' (c₂ :: cs₂) with
        | nil => exact absurd hsp (splitOnChar_ne_nil _ _)
        | cons m ms =>
          rw [hsp] at ih₂
          rw [List.getLastD_eq_getLast?] at ih₂
          rw [List.getLastD_eq_getLast?, List.getLast?_cons_cons]
          exact ih₂
      · rw [splitOnChar_cons, if_neg hc]
        cases hsp : splitOnChar '\n' (c₂ :: cs₂) with
        | nil => exact absurd hsp (splitOnChar_ne_nil _ _)
        | cons m ms =>
          show (((c :: m) :: ms).getLastD []) ≠ []
          rw [hsp, List.getLastD_eq_getLast?] at ih₂
          cases ms with
          | nil =>
            simp [List.getLastD_eq_getLast?]
          | cons m₂ ms₂ =>
            rw [List.getLastD_eq_getLast?, List.getLast?_cons_cons]
            rw [List.getLast?_cons_cons] at ih₂
            exact ih₂

theorem rustLines_eq_splitOnChar (s : List Char) (hne : s ≠ [])
    (hcr : '\r' ∉ s) (hlast : s.getLast? ≠ some '\n') :
    rustLines s = splitOnChar '\n' s := by
  unfold rustLines
  cases hg : (splitOnChar '\n' s).getLast? with
  | none =>
    have := splitOnChar_ne_nil '\n' s
    rw [List.getLast?_eq_none_iff] at hg
    exact absurd hg this
  | some l =>
    have hD : (splitOnChar '\n' s).getLastD [] = l := by
      rw [List.getLastD_eq_getLast?, hg]
      rfl
    have hlne : l ≠ [] := by
      have hDne := splitOnChar_getLast_ne_nil s hne hlast
      rwa [hD] at hDne
    rw [hD, if_neg hlne]
    have hmap : ((splitOnChar '\n' s).dropLast).map stripCR = (splitOnChar '\n' s).dropLast := by
      have hid : ∀ l₂ ∈ (splitOnChar '\n' s).dropLast, stripCR l₂ = id l₂ := by
        intro l₂ hl₂
        apply stripCR_of_no_cr
        intro hrin
        exact hcr (splitOnChar_mem '\n' s l₂ (List.mem_of_mem_dropLast hl₂) '\r' hrin)
      rw [List.map_congr_left hid, List.map_id]
    rw [hmap]
    exact List.dropLast_append_getLast? l (by rw [hg]; rfl)

/-- Parts produced by chunking a file content at a positive chunk size:
`contents.lines()` grouped by `chunks(chunk_size)` with each group joined
by newlines (reader.rs lines 36-50 and xml_parser.rs lines 286-294 use
the identical computation). -/
def chunkParts (n : Nat) (s : List Char) : List (List Char) :=
  (chunksOf n (rustLines s)).map joinLines

/-- Reconstruction of a file from its part slots: `parts.join("\n")`
(xml_parser.rs line 302). -/
def reconstructParts (ps : List (List Char)) : List Char := joinLines ps

/-- The patch applier's re-chunking of the current file content,
including its explicit `chunk_size == 0` branch that yields the whole
content as a single slot (xml_parser.rs lines 287-294). -/
def rechunkContent (n : Nat) (s : List Char) : List (List Char) :=
  if n = 0 then [s] else chunkParts n s

/-- Rust unsigned integer division: division by zero panics, modelled
as `none`. -/
def rustDiv (a b : Nat) : Option Nat :=
  if b = 0 then none else some (a / b)

/-- Rust `slice::chunks`, which panics when the chunk size is zero,
modelled as `none`. -/
def rustChunks {α : Type} (n : Nat) (l : List α) : Option (List (List α)) :=
  if n = 0 then none else some (chunksOf n l)

/-- Model of the chunking computation in `read_and_format_file`
(reader.rs lines 36-50): the ceiling-division part count
`(lines.len() + chunk_size - 1) / chunk_size` followed by
`lines.chunks(chunk_size)`; `none` models the Rust panic. -/
def readAndFormatParts (n : Nat) (s : List Char) : Option (Nat × List (List Char)) :=
  match rustDiv ((rustLines s).length + n - 1) n with
  | none => none
  | some np =>
    match rustChunks n (rustLines s) with
    | none => none
    | some cs => some (np, cs.map joinLines)

/-- One overlay step of the applier merge loop (xml_parser.rs lines
296-300): `if part_id > 0 && part_id <= parts.len()` overwrite slot
`part_id - 1`, otherwise leave the slots untouched. -/
def applyOne (ps : List (List Char)) (pc : Nat × List Char) : List (List Char) :=
  if 0 < pc.1 ∧ pc.1 ≤ ps.length then ps.set (pc.1 - 1) pc.2 else ps

/-- The applier merge loop over all supplied `(part_id, content)` pairs
(xml_parser.rs lines 296-300). -/
def applyParts (parts : List (List Char)) (supplied : List (Nat × List Char)) : List (List Char) :=
  supplied.foldl applyOne parts

theorem applyOne_length (ps : List (List Char)) (pc : Nat × List Char) :
    (applyOne ps pc).length = ps.length := by
  unfold applyOne
  split
  · rw [List.length_set]
  · rfl

theorem applyParts_length (supplied : List (Nat × List Char)) (parts : List (List Char)) :
    (applyParts parts supplied).length = parts.length := by
  induction supplied generalizing parts with
  | nil => rfl
  | cons pc rest ih =>
    unfold applyParts
    rw [List.foldl_cons]
    calc (rest.foldl applyOne (applyOne parts pc)).length
        = (applyOne parts pc).length := ih (applyOne parts pc)
      _ = parts.length := applyOne_length parts pc

theorem applyParts_filter (supplied : List (Nat × List Char)) (parts : List (List Char))
    (len : Nat) (hlen : len = parts.length) :
    applyParts parts supplied
      = applyParts parts (supplied.filter fun pc => decide (0 < pc.1 ∧ pc.1 ≤ len)) := by
  induction supplied generalizing parts len with
  | nil => rfl
  | cons pc rest ih =>
    subst hlen
    by_cases hin : 0 < pc.1 ∧ pc.1 ≤ parts.length
    · rw [List.filter_cons_of_pos (by simpa using hin)]
      unfold applyParts
      rw [List.foldl_cons, List.foldl_cons]
      have := ih (applyOne parts pc) parts.length (applyOne_length parts pc).symm
      simpa [applyParts] using this
    · rw [List.filter_cons_of_neg (by simpa using hin)]
      unfold applyParts
      rw [List.foldl_cons]
      have hskip : applyOne parts pc = parts := by
        unfold applyOne
        rw [if_neg hin]
      rw [hskip]
      exact ih parts parts.length rfl

/-- The `AppError` variants (errors/mod.rs and errors.rs) reachable in
the modelled code paths; `panicked` models a Rust panic coming from
`expect`/`unwrap`. -/
inductive AppError where
  | ioError
  | rollbackError (msg : String)
  | xmlError
  | panicked
deriving DecidableEq

/-- File payloads stored in the modelled filesystem.  The rollback
record is stored in parsed form: the writer serializes it with
`toml::to_string` and the rollback command parses it back with
`toml::from_str`, a round trip this model treats as the identity. -/
inductive FData where
  | text (content : List Char)
  | rollback (newFiles : List String) (rollbackFiles : List (String × String))
deriving DecidableEq

/-- The modelled filesystem: an association list of files plus the set
of directories known to exist (`create_dir_all` registers the target
directory; parents are not tracked separately). -/
structure Fs where
  files : List (String × FData)
  dirs : List String
deriving DecidableEq

def writeAssoc : List (String × FData) → String → FData → List (String × FData)
  | [], p, d => [(p, d)]
  | (q, e) :: rest, p, d =>
    if q = p then (p, d) :: rest else (q, e) :: writeAssoc rest p d

def fsRead (fs : Fs) (p : String) : Option FData :=
  (fs.files.find? (fun e => e.1 == p)).map (fun e => e.2)

/-- Model of `read_to_string`: succeeds only on text payloads. -/
def fsReadText (fs : Fs) (p : String) : Option (List Char) :=
  match fsRead fs p with
  | some (.text c) => some c
  | _ => none

def fsWrite (fs : Fs) (p : String) (d : FData) : Fs :=
  ⟨writeAssoc fs.files p d, fs.dirs⟩

def fsRemoveFile (fs : Fs) (p : String) : Fs :=
  ⟨fs.files.filter (fun e => e.1 != p), fs.dirs⟩

def fileExists (fs : Fs) (p : String) : Bool :=
  (fsRead fs p).isSome

def dirExists (fs : Fs) (d : String) : Bool :=
  fs.dirs.contains d

/-- Model of `create_dir_all`: registers the directory; the empty path
is accepted and does nothing, as in Rust. -/
def mkDirAll (fs : Fs) (d : String) : Fs :=
  if d = "" then fs
  else ⟨fs.files, if fs.dirs.contains d then fs.dirs else d :: fs.dirs⟩

/-- Model of `Path::join` for the relative path shapes the tool uses. -/
def joinPath (a b : String) : String :=
  ⟨a.data ++ '/' :: b.data⟩

/-- Model of `Path::file_name`: the component after the last slash. -/
def fileName (p : String) : String :=
  ⟨(p.data.reverse.takeWhile (fun c => c != '/')).reverse⟩

/-- Model of `Path::parent` composed with `display`: everything before
the last slash, or the empty string for a bare name. -/
def parentDir (p : String) : String :=
  ⟨((p.data.reverse.dropWhile (fun c => c != '/')).drop 1).reverse⟩

/-- Model of `to_string_lossy().ends_with(..)` on paths. -/
def strEndsWith (a b : String) : Bool :=
  b.data.isSuffixOf a.data

/-- A path strictly below directory `d`. -/
def isUnder (d p : String) : Bool :=
  (d.data ++ ['/']).isPrefixOf p.data

/-- A path one level below directory `d` (a direct child entry). -/
def directlyIn (d p : String) : Bool :=
  (d.data ++ ['/']).isPrefixOf p.data && !((p.data.drop (d.data.length + 1)).contains '/')

/-- Model of `remove_dir_all`: drops the directory, its subdirectories
and every file below it. -/
def fsRemoveDirAll (fs : Fs) (d : String) : Fs :=
  ⟨fs.files.filter (fun e => !(isUnder d e.1)),
   fs.dirs.filter (fun x => !(x == d || isUnder d x))⟩

/-- The output-directory clearing loop of `save_individual_files`
(writer.rs lines 17-24): every entry that is a regular file directly
inside the directory is removed; subdirectories are untouched. -/
def removeDirectFiles (fs : Fs) (out : String) : Fs :=
  ⟨fs.files.filter (fun e => !(directlyIn out e.1)), fs.dirs⟩

/-- One event from the streaming XML reader (the external `quick_xml`
crate): the state machine in xml_parser.rs consumes exactly these
shapes; `parseErr` models `Err(_)` from `read_event_into`. -/
inductive XmlEvent where
  | startTag (name : String) (attrs : List (String × String))
  | endTag (name : String)
  | text (s : List Char)
  | cdata (s : List Char)
  | parseErr
deriving DecidableEq

/-- Trace markers recording the order of disk writes in one run. -/
inductive TEvent where
  | applierWrite (path : String)
  | backupWrite (path : String)
  | recordWrite
deriving DecidableEq

def TEvent.isApplier : TEvent → Bool
  | .applierWrite _ => true
  | _ => false

/-- The mutable fields of the `XmlParser` struct (xml_parser.rs lines
9-17). -/
structure PState where
  currentPath : Option String
  currentParts : List (Nat × List Char)
  responseTxt : List Char
  inResponseTag : Bool
deriving DecidableEq

def initState : PState := ⟨none, [], [], false⟩

/-- Result of a run: the filesystem after all performed effects, the
`saved_files` counter, the returned error if any, and the write trace. -/
structure PRes where
  fs : Fs
  saved : Nat
  err : Option AppError
  trace : List TEvent
deriving DecidableEq

/-- Model of `str::parse` into an unsigned integer: a non-empty
all-digit string parses to its decimal value, anything else fails. -/
def charsToNat? (l : List Char) : Option Nat :=
  if l.isEmpty then none
  else if l.all Char.isDigit then
    some (l.foldl (fun n c => n * 10 + (c.toNat - 48)) 0)
  else none

/-- Comma-split then parse each piece, keeping only the successes
(`split(',')` with `filter_map(|s| s.parse().ok())`). -/
def parseIdsCSV (v : String) : List Nat :=
  (splitOnChar ',' v.data).filterMap charsToNat?

/-- `handle_file_start` (xml_parser.rs lines 34-57): scan the
attributes in order; `path` sets the current path, `parts` replaces the
pending part list with empty-content placeholder slots. -/
def handleFileStart (st : PState) (attrs : List (String × String)) : PState :=
  attrs.foldl (fun s a =>
    if a.1 = "path" then { s with currentPath := some a.2 }
    else if a.1 = "parts" then
      { s with currentParts := (parseIdsCSV a.2).map (fun i => (i, [])) }
    else s) st

/-- `handle_part_start` (xml_parser.rs lines 59-77): inside a response
tag push a sentinel `(0, "")`; otherwise each `id` attribute pushes a
slot whose id is `parse().unwrap_or(0)`. -/
def handlePartStart (st : PState) (attrs : List (String × String)) : PState :=
  if st.inResponseTag then
    { st with currentParts := st.currentParts ++ [(0, [])] }
  else
    attrs.foldl (fun s a =>
      if a.1 = "id" then
        { s with currentParts := s.currentParts ++ [((charsToNat? a.2.data).getD 0, [])] }
      else s) st

/-- `handle_text` (xml_parser.rs lines 79-83): append the text to the
last pending part, if any. -/
def handleText (st : PState) (t : List Char) : PState :=
  match st.currentParts.getLast? with
  | none => st
  | some lp => { st with currentParts := st.currentParts.dropLast ++ [(lp.1, lp.2 ++ t)] }

/-- Outcome of one loop iteration: leave the loop with a result, or
continue with updated state. -/
inductive StepRes where
  | halt (r : PRes)
  | next (st : PState) (fs : Fs) (saved : Nat) (trace : List TEvent)
deriving DecidableEq

/-- One iteration of the `process_file` event loop (xml_parser.rs lines
244-382).  `halt` models both the `?` early returns and the
`Err(_) => break` arm; `next` continues with the loop state. -/
def stepEvent (origs : List String) (outDir : String) (auto : Bool) (csize : Nat)
    (st : PState) (fs : Fs) (saved : Nat) (trace : List TEvent) :
    XmlEvent → StepRes
  | .startTag name attrs =>
    if name = "file" || name = "new_file" then
      .next (handleFileStart st attrs) fs saved trace
    else if name = "part" then
      .next (handlePartStart st attrs) fs saved trace
    else if name = "response" then
      .next { st with inResponseTag := true, currentParts := [(0, [])] } fs saved trace
    else if name = "parts_to_edit" || name = "preprocessor_prompt" then
      .next { st with currentPath := none, currentParts := [] } fs saved trace
    else
      .next st fs saved trace
  | .text t => .next (handleText st t) fs saved trace
  | .cdata t => .next (handleText st t) fs saved trace
  | .endTag name =>
    if name = "file" then
      match st.currentPath with
      | none => .next st fs saved trace
      | some path =>
        let resolved := (origs.find? (fun p => strEndsWith p path)).getD path
        match fsReadText fs resolved with
        | none => .halt ⟨fs, saved, some .ioError, trace⟩
        | some content =>
          let merged := applyParts (rechunkContent csize content) st.currentParts
          let outPath := if auto then resolved else joinPath (joinPath outDir "code") path
          let fs₂ := fsWrite (mkDirAll fs (parentDir outPath)) outPath (.text (joinLines merged))
          .next { st with currentPath := none, currentParts := [] } fs₂ (saved + 1)
            (trace ++ [.applierWrite outPath])
    else if name = "new_file" then
      match st.currentPath with
      | none => .next st fs saved trace
      | some path =>
        let newContent := joinLines (st.currentParts.map (fun pc => pc.2))
        let fs₂ := fsWrite (mkDirAll fs (parentDir path)) path (.text newContent)
        .next { st with currentPath := none, currentParts := [] } fs₂ (saved + 1)
          (trace ++ [.applierWrite path])
    else if name = "parts_to_edit" then
      .next { st with currentPath := none } fs saved trace
    else if name = "preprocessor_prompt" then
      .next { st with currentParts := [] } fs saved trace
    else if name = "response" then
      let resp := joinLines (st.currentParts.map (fun pc => pc.2))
      let st₂ := { st with inResponseTag := false, currentParts := [], responseTxt := resp }
      if resp = [] then .next st₂ fs saved trace
      else
        let rp := joinPath outDir "response.txt"
        .next st₂ (fsWrite (mkDirAll fs outDir) rp (.text resp)) saved
          (trace ++ [.applierWrite rp])
    else
      .next st fs saved trace
  | .parseErr => .halt ⟨fs, saved, none, trace⟩

/-- The `process_file` loop (xml_parser.rs lines 234-385) over a list
of reader events; reaching the end of the list models `Event::Eof`. -/
def processEvents (origs : List String) (outDir : String) (auto : Bool) (csize : Nat) :
    PState → Fs → Nat → List TEvent → List XmlEvent → PRes
  | _, fs, saved, trace, [] => ⟨fs, saved, none, trace⟩
  | st, fs, saved, trace, e :: rest =>
    match stepEvent origs outDir auto csize st fs saved trace e with
    | .halt r => r
    | .next st₂ fs₂ sv₂ tr₂ => processEvents origs outDir auto csize st₂ fs₂ sv₂ tr₂ rest

/-- The pre-processing read loop of `save_individual_files` (writer.rs
lines 40-44): read every original file, aborting on the first failure. -/
def readAll (fs : Fs) : List String → Option (List (String × List Char))
  | [] => some []
  | p :: ps =>
    match fsReadText fs p with
    | none => none
    | some c => (readAll fs ps).map (fun rest => (p, c) :: rest)

/-- The compare-and-backup loop of `save_individual_files` (writer.rs
lines 52-65): re-read each original, and if its content changed write
the held pre-run content to `rollback_dir/file_name`, recording the
pair.  The boolean is false when a re-read failed (the Rust `?`). -/
def backupLoop (rdir : String) (fs : Fs) :
    List (String × List Char) → Fs × List (String × String) × List TEvent × Bool
  | [] => (fs, [], [], true)
  | (p, orig) :: rest =>
    match fsReadText fs p with
    | none => (fs, [], [], false)
    | some newc =>
      if newc = orig then backupLoop rdir fs rest
      else
        let bp := joinPath rdir (fileName p)
        let r := backupLoop rdir (fsWrite fs bp (.text orig)) rest
        (r.1, (p, bp) :: r.2.1, .backupWrite bp :: r.2.2.1, r.2.2.2)

/-- The directory-preparation prefix of `save_individual_files`
(writer.rs lines 16-31): clear the existing output directory or create
it, then create the `.rollback` directory. -/
def savePrepFs (outDir : String) (fs0 : Fs) : Fs :=
  mkDirAll (if dirExists fs0 outDir then removeDirectFiles fs0 outDir else mkDirAll fs0 outDir)
    (joinPath outDir ".rollback")

/-- The suffix of `save_individual_files` after the parser loop
succeeded (writer.rs lines 52-80): back up changed originals, record
paths from `original_paths` that no longer exist as `new_files`, and
write `rollback.toml`. -/
def saveFinish (outDir : String) (origs : List String) (r : PRes)
    (origContents : List (String × List Char)) : PRes :=
  let rdir := joinPath outDir ".rollback"
  let b := backupLoop rdir r.fs origContents
  if b.2.2.2 then
    let newFiles := origs.filter (fun p => !(fileExists b.1 p))
    let fs₃ := fsWrite b.1 (joinPath rdir "rollback.toml") (.rollback newFiles b.2.1)
    ⟨fs₃, r.saved, none, r.trace ++ b.2.2.1 ++ [.recordWrite]⟩
  else
    ⟨b.1, r.saved, some .ioError, r.trace ++ b.2.2.1⟩

/-- `save_individual_files` (writer.rs lines 9-81): clear or create the
output directory, create the rollback directory, read all originals
into memory, run the parser loop, back up the originals whose content
changed, record paths from `original_paths` that no longer exist as
`new_files`, and write `rollback.toml`. -/
def saveIndividualFiles (events : List XmlEvent) (outDir : String) (auto : Bool)
    (origs : List String) (csize : Nat) (fs0 : Fs) : PRes :=
  let fs₂ := savePrepFs outDir fs0
  match readAll fs₂ origs with
  | none => ⟨fs₂, 0, some .ioError, []⟩
  | some origContents =>
    let r := processEvents origs outDir auto csize initState fs₂ 0 [] events
    match r.err with
    | some _ => r
    | none => saveFinish outDir origs r origContents

/-- `rollback_last_run` (writer.rs lines 84-121): error out when no
rollback directory exists, otherwise parse the record, delete the
listed new files that still exist, copy every existing backup over its
original, and remove the rollback directory. -/
def rollbackLastRun (outDir : String) (fs : Fs) : Fs × Option AppError :=
  let rdir := joinPath outDir ".rollback"
  if !(dirExists fs rdir) then (fs, some (.rollbackError "No changes to rollback"))
  else
    match fsRead fs (joinPath rdir "rollback.toml") with
    | none => (fs, some .ioError)
    | some (.text _) => (fs, some .panicked)
    | some (.rollback newFiles pairs) =>
      let fs₁ := newFiles.foldl (fun f p => if fileExists f p then fsRemoveFile f p else f) fs
      let fs₂ := pairs.foldl (fun f pr =>
        if fileExists f pr.2 then
          match fsRead f pr.2 with
          | some d => fsWrite f pr.1 d
          | none => f
        else f) fs₁
      (fsRemoveDirAll fs₂ rdir, none)

/-- Lookup in the `parts_to_edit` map (`HashMap::get`, keys assumed
distinct). -/
def lookupSel (sel : List (String × List Nat)) (p : String) : Option (List Nat) :=
  (sel.find? (fun e => e.1 == p)).map (fun e => e.2)

/-- The attribute loop of the `<part>` arm of
`filter_preprocessed_prompt` (xml_parser.rs lines 120-137): each `id`
attribute is parsed with `.expect` (a panic on failure, modelled as an
error); a requested id emits the start event and raises the
in-requested-part flag. -/
def partAttrLoop (cparts : List Nat) (ev : XmlEvent) :
    List (String × String) → Bool → List XmlEvent → Except AppError (Bool × List XmlEvent)
  | [], inReq, out => .ok (inReq, out)
  | a :: rest, inReq, out =>
    if a.1 = "id" then
      match charsToNat? a.2.data with
      | none => .error .panicked
      | some i =>
        if cparts.contains i then partAttrLoop cparts ev rest true (out ++ [ev])
        else partAttrLoop cparts ev rest inReq out
    else partAttrLoop cparts ev rest inReq out

/-- The attribute loop of the `<file>` arm of
`filter_preprocessed_prompt` (xml_parser.rs lines 102-119): state was
reset before the loop; every `path` attribute found in the selection
sets the current file and emits the start event. -/
def fileAttrLoop (sel : List (String × List Nat)) (ev : XmlEvent) :
    List (String × String) → Option String → List Nat → List XmlEvent →
    Option String × List Nat × List XmlEvent
  | [], cfp, cparts, out => (cfp, cparts, out)
  | a :: rest, cfp, cparts, out =>
    if a.1 = "path" then
      match lookupSel sel a.2 with
      | some parts => fileAttrLoop sel ev rest (some a.2) parts (out ++ [ev])
      | none => fileAttrLoop sel ev rest cfp cparts out
    else fileAttrLoop sel ev rest cfp cparts out

/-- `filter_preprocessed_prompt` (xml_parser.rs lines 85-174) over
reader events; the written output is collected as a list of events. -/
def filterEvents (sel : List (String × List Nat)) :
    Option String → List Nat → Bool → List XmlEvent → List XmlEvent →
    Except AppError (List XmlEvent)
  | _, _, _, out, [] => .ok out
  | cfp, cparts, inReq, out, e :: rest =>
    match e with
    | .startTag name attrs =>
      if name = "file" then
        let res := fileAttrLoop sel (.startTag name attrs) attrs none [] out
        filterEvents sel res.1 res.2.1 inReq res.2.2 rest
    else if name = "part" then
        match cfp with
        | none => filterEvents sel cfp cparts inReq out rest
        | some _ =>
          match partAttrLoop cparts (.startTag name attrs) attrs inReq out with
          | .error err => .error err
          | .ok res => filterEvents sel cfp cparts res.1 res.2 rest
      else filterEvents sel cfp cparts inReq out rest
    | .endTag name =>
      if name = "file" then
        match cfp with
        | some _ => filterEvents sel none [] inReq (out ++ [.endTag name]) rest
        | none => filterEvents sel cfp cparts inReq out rest
      else if name = "part" then
        if inReq then filterEvents sel cfp cparts false (out ++ [.endTag name]) rest
        else filterEvents sel cfp cparts inReq out rest
      else filterEvents sel cfp cparts inReq out rest
    | .text t =>
      if inReq then filterEvents sel cfp cparts inReq (out ++ [.text t]) rest
      else filterEvents sel cfp cparts inReq out rest
    | .cdata t =>
      if inReq then filterEvents sel cfp cparts inReq (out ++ [.cdata t]) rest
      else filterEvents sel cfp cparts inReq out rest
    | .parseErr => .error .xmlError

theorem writeAssoc_find_self (l : List (String × FData)) (p : String) (d : FData) :
    (writeAssoc l p d).find? (fun e => e.1 == p) = some (p, d) := by
  induction l with
  | nil => simp [writeAssoc]
  | cons kv rest ih =>
    obtain ⟨k, v⟩ := kv
    unfold writeAssoc
    by_cases hk : k = p
    · rw [if_pos hk]
      simp
    · rw [if_neg hk]
      rw [List.find?_cons_of_neg _ (by simpa using hk)]
      exact ih

theorem writeAssoc_find_ne (l : List (String × FData)) (p q : String) (d : FData)
    (h : q ≠ p) :
    (writeAssoc l p d).find? (fun e => e.1 == q) = l.find? (fun e => e.1 == q) := by
  induction l with
  | nil =>
    simp [writeAssoc]
    simpa using fun hpq => absurd hpq.symm h
  | cons kv rest ih =>
    obtain ⟨k, v⟩ := kv
    unfold writeAssoc
    by_cases hk : k = p
    · rw [if_pos hk]
      subst hk
      rw [List.find?_cons_of_neg _ (by simpa using fun hpq => absurd hpq.symm h)]
      rw [List.find?_cons_of_neg _ (by simpa using fun hpq => absurd hpq.symm h)]
    · rw [if_neg hk]
      by_cases hq : k = q
      · subst hq
        rw [List.find?_cons_of_pos _ (by simp), List.find?_cons_of_pos _ (by simp)]
      · rw [List.find?_cons_of_neg _ (by simpa using hq)]
        rw [List.find?_cons_of_neg _ (by simpa using hq)]
        exact ih

theorem fsRead_fsWrite_self (fs : Fs) (p : String) (d : FData) :
    fsRead (fsWrite fs p d) p = some d := by
  unfold fsRead fsWrite
  rw [writeAssoc_find_self]
  rfl

theorem fsRead_fsWrite_ne (fs : Fs) (p q : String) (d : FData) (h : q ≠ p) :
    fsRead (fsWrite fs p d) q = fsRead fs q := by
  unfold fsRead fsWrite
  rw [writeAssoc_find_ne _ _ _ _ h]

theorem fsRead_mkDirAll (fs : Fs) (d : String) (p : String) :
    fsRead (mkDirAll fs d) p = fsRead fs p := by
  unfold mkDirAll
  split <;> rfl

theorem fsReadText_mkDirAll (fs : Fs) (d : String) (p : String) :
    fsReadText (mkDirAll fs d) p = fsReadText fs p := by
  unfold fsReadText
  rw [fsRead_mkDirAll]

theorem find?_filter_keep (l : List (String × FData)) (g : String → Bool) (p : String)
    (hg : g p = false) :
    (l.filter (fun e => !(g e.1))).find? (fun e => e.1 == p)
      = l.find? (fun e => e.1 == p) := by
  induction l with
  | nil => rfl
  | cons kv rest ih =>
    obtain ⟨k, v⟩ := kv
    by_cases hk : k = p
    · subst hk
      rw [List.filter_cons_of_pos (by simp [hg])]
      rw [List.find?_cons_of_pos _ (by simp), List.find?_cons_of_pos _ (by simp)]
    · by_cases hgk : g k
      · rw [List.filter_cons_of_neg (by simp [hgk])]
        rw [List.find?_cons_of_neg _ (by simpa using hk)]
        exact ih
      · rw [List.filter_cons_of_pos (by simp [hgk])]
        rw [List.find?_cons_of_neg _ (by simpa using hk)]
        rw [List.find?_cons_of_neg _ (by simpa using hk)]
        exact ih

theorem find?_filter_drop (l : List (String × FData)) (g : String → Bool) (p : String)
    (hg : g p = true) :
    (l.filter (fun e => !(g e.1))).find? (fun e => e.1 == p) = none := by
  induction l with
  | nil => rfl
  | cons kv rest ih =>
    obtain ⟨k, v⟩ := kv
    by_cases hk : k = p
    · subst hk
      rw [List.filter_cons_of_neg (by simp [hg])]
      exact ih
    · by_cases hgk : g k
      · rw [List.filter_cons_of_neg (by simp [hgk])]
        exact ih
      · rw [List.filter_cons_of_pos (by simp [hgk])]
        rw [List.find?_cons_of_neg _ (by simpa using hk)]
        exact ih

theorem fsRead_removeDirectFiles_of_not (fs : Fs) (out p : String)
    (h : directlyIn out p = false) :
    fsRead (removeDirectFiles fs out) p = fsRead fs p := by
  unfold fsRead removeDirectFiles
  rw [find?_filter_keep _ _ _ h]

theorem fsRead_removeDirectFiles_of (fs : Fs) (out p : String)
    (h : directlyIn out p = true) :
    fsRead (removeDirectFiles fs out) p = none := by
  unfold fsRead removeDirectFiles
  rw [find?_filter_drop _ _ _ h]
  rfl

/-- C1 counterexample input: the two-character content `a` + newline. -/
def exANewline : List Char := ['a', '\n']

/-- C1.  The round-trip identity as literally stated fails on the code:
Rust `str::lines` drops a trailing newline, so chunking `"a\n"` at
chunk size 1 and joining the parts back yields `"a"`. -/
theorem press_c1_counterexample :
    reconstructParts (chunkParts 1 exANewline) ≠ exANewline := by decide

/-- C1 (amended).  For every chunk size `> 0` and every content that
contains no carriage return and does not end in a newline, splitting
the content into lines, grouping them into chunks and joining
everything back with newlines reproduces the content exactly. -/
theorem press_c1_chunk_roundtrip (s : List Char) (n : Nat) (_hn : 0 < n)
    (hcr : '\r' ∉ s) (hnl : s.getLast? ≠ some '\n') :
    reconstructParts (chunkParts n s) = s := by
  by_cases hs : s = []
  · subst hs
    rfl
  · unfold reconstructParts chunkParts
    rw [rustLines_eq_splitOnChar s hs hcr hnl, joinLines_chunksOf, joinLines_splitOnChar]

theorem press_c1_chunk_roundtrip_witness :
    0 < 2 ∧ '\r' ∉ "ab\ncd\ne".data ∧ "ab\ncd\ne".data.getLast? ≠ some '\n'
      ∧ reconstructParts (chunkParts 2 "ab\ncd\ne".data) = "ab\ncd\ne".data :=
  ⟨by decide, by decide, by decide,
   press_c1_chunk_roundtrip "ab\ncd\ne".data 2 (by decide) (by decide) (by decide)⟩

/-- C2.  The applier merge loop ignores every supplied part whose id is
`0` or exceeds the number of slots: merging is unchanged when those
pairs are filtered out, and the number of slots (hence no out-of-bounds
write) is always preserved. -/
theorem press_c2_out_of_range_ids_ignored (parts : List (List Char))
    (supplied : List (Nat × List Char)) :
    applyParts parts supplied
        = applyParts parts (supplied.filter fun pc => decide (0 < pc.1 ∧ pc.1 ≤ parts.length))
      ∧ (applyParts parts supplied).length = parts.length :=
  ⟨applyParts_filter supplied parts parts.length rfl, applyParts_length supplied parts⟩

/-- C7.  The claim says the chunker treats `chunk_size == 0` as "whole
file is part 1" without faulting.  The applier re-chunk
(xml_parser.rs) indeed does, but the chunker itself
(`read_and_format_file`, reader.rs) computes
`(lines.len() + chunk_size - 1) / chunk_size` and `lines.chunks(0)`,
both of which fault at zero (modelled as `none`): the code contradicts
the explicitly intended degenerate case. -/
theorem press_c7_chunk_size_zero_bug (s : List Char) :
    readAndFormatParts 0 s = none ∧ rechunkContent 0 s = [s] := by
  constructor
  · unfold readAndFormatParts rustDiv
    simp
  · unfold rechunkContent
    simp

/-- C9.  Invoking rollback when no rollback directory (hence no record
of a prior run) exists returns the `NoChangesToRollback` error and
leaves the filesystem exactly unchanged. -/
theorem press_c9_rollback_no_record (fs : Fs) (outDir : String)
    (h : dirExists fs (joinPath outDir ".rollback") = false) :
    rollbackLastRun outDir fs = (fs, some (.rollbackError "No changes to rollback")) := by
  simp [rollbackLastRun, h]

theorem press_c9_rollback_no_record_witness :
    dirExists ⟨[], []⟩ (joinPath "out" ".rollback") = false
      ∧ rollbackLastRun "out" ⟨[], []⟩
          = (⟨[], []⟩, some (.rollbackError "No changes to rollback")) :=
  ⟨by decide, press_c9_rollback_no_record ⟨[], []⟩ "out" (by decide)⟩

theorem processEvents_cons (origs : List String) (outDir : String) (auto : Bool)
    (csize : Nat) (st : PState) (fs : Fs) (saved : Nat) (tr : List TEvent)
    (e : XmlEvent) (rest : List XmlEvent) :
    processEvents origs outDir auto csize st fs saved tr (e :: rest)
      = match stepEvent origs outDir auto csize st fs saved tr e with
        | .halt r => r
        | .next st₂ fs₂ sv₂ tr₂ => processEvents origs outDir auto csize st₂ fs₂ sv₂ tr₂ rest := rfl

/-- Fixture: one original file `a.rs` with content `old`; the output
directory `out` exists and is empty. -/
def exFsA : Fs := ⟨[("a.rs", FData.text "old".data)], ["out"]⟩

/-- Fixture: one original file `b.rs` with content `x`; the output
directory `out` exists and is empty. -/
def exFsB : Fs := ⟨[("b.rs", FData.text "x".data)], ["out"]⟩

/-- Fixture events: replace part 1 of `a.rs` with `new`, then create
`b.rs` with content `B`. -/
def exEventsAB : List XmlEvent :=
  [.startTag "file" [("path", "a.rs")], .startTag "part" [("id", "1")],
   .text "new".data, .endTag "part", .endTag "file",
   .startTag "new_file" [("path", "b.rs")], .startTag "part" [("id", "1")],
   .text "B".data, .endTag "part", .endTag "new_file"]

/-- Fixture events: replace part 1 of `a.rs` with `new` and nothing
else. -/
def exEventsMod : List XmlEvent :=
  [.startTag "file" [("path", "a.rs")], .startTag "part" [("id", "1")],
   .text "new".data, .endTag "part", .endTag "file"]

/-- C5 (amended).  A reader parse error is not fatal: the loop breaks,
everything after the first error event is ignored, and the run reports
success with the filesystem and counter as they stood; there is no
`PatchFormatError` and nothing already written is undone. -/
theorem press_c5_parse_error_nonfatal (origs : List String) (outDir : String)
    (auto : Bool) (csize : Nat) (st : PState) (fs : Fs) (saved : Nat)
    (tr : List TEvent) (pre rest : List XmlEvent) :
    processEvents origs outDir auto csize st fs saved tr (pre ++ XmlEvent.parseErr :: rest)
        = processEvents origs outDir auto csize st fs saved tr (pre ++ [XmlEvent.parseErr])
      ∧ processEvents origs outDir auto csize st fs saved tr [XmlEvent.parseErr]
        = ⟨fs, saved, none, tr⟩ := by
  constructor
  · induction pre generalizing st fs saved tr with
    | nil => rfl
    | cons e p ih =>
      rw [List.cons_append, List.cons_append, processEvents_cons, processEvents_cons]
      cases stepEvent origs outDir auto csize st fs saved tr e with
      | halt r => rfl
      | next st₂ fs₂ sv₂ tr₂ => exact ih st₂ fs₂ sv₂ tr₂
  · rfl

/-- C5 counterexample.  A run whose response consists of a parse error
alone returns success (`err = none`) instead of failing with a format
error, and a run that writes `a.rs` before hitting a parse error also
returns success with the write in place: the claim that the whole
operation fails with `PatchFormatError` and nothing is written is
false (no such error variant even exists). -/
theorem press_c5_counterexample :
    (saveIndividualFiles [XmlEvent.parseErr] "out" true ["a.rs"] 1 exFsA).err = none
      ∧ (processEvents ["a.rs"] "out" true 1 initState exFsA 0 []
          (exEventsMod ++ [XmlEvent.parseErr])).err = none
      ∧ fsReadText (processEvents ["a.rs"] "out" true 1 initState exFsA 0 []
          (exEventsMod ++ [XmlEvent.parseErr])).fs "a.rs" = some "new".data :=
  ⟨by decide, by decide, by decide⟩

/-- C6 (amended).  When an updated file's path has no suffix match
among the known original paths and the fallback literal path cannot be
read, the applier aborts the whole run with an `IoError`: the remaining
events (sibling files included) are not processed and the filesystem is
left as it stood.  No `UnresolvedPath` error exists. -/
theorem press_c6_unresolved_path_aborts (origs : List String) (outDir : String)
    (auto : Bool) (csize : Nat) (st : PState) (fs : Fs) (saved : Nat)
    (tr : List TEvent) (path : String) (rest : List XmlEvent)
    (hpath : st.currentPath = some path)
    (hmatch : ∀ p ∈ origs, strEndsWith p path = false)
    (hread : fsReadText fs path = none) :
    processEvents origs outDir auto csize st fs saved tr (XmlEvent.endTag "file" :: rest)
      = ⟨fs, saved, some .ioError, tr⟩ := by
  have hfind : origs.find? (fun p => strEndsWith p path) = none :=
    List.find?_eq_none.mpr (fun x hx => by rw [hmatch x hx]; simp)
  have hstep : stepEvent origs outDir auto csize st fs saved tr (XmlEvent.endTag "file")
      = .halt ⟨fs, saved, some .ioError, tr⟩ := by
    simp [stepEvent, hpath, hfind, hread]
  rw [processEvents_cons, hstep]

def exStNope : PState := ⟨some "nope.rs", [], [], false⟩

theorem press_c6_unresolved_path_aborts_witness :
    exStNope.currentPath = some "nope.rs"
      ∧ (∀ p ∈ ["b.rs"], strEndsWith p "nope.rs" = false)
      ∧ fsReadText exFsB "nope.rs" = none
      ∧ processEvents ["b.rs"] "out" false 1 exStNope exFsB 0 [] [XmlEvent.endTag "file"]
          = ⟨exFsB, 0, some .ioError, []⟩ :=
  ⟨rfl, by decide, by decide,
   press_c6_unresolved_path_aborts ["b.rs"] "out" false 1 exStNope exFsB 0 [] "nope.rs" []
     rfl (by decide) (by decide)⟩

/-- Fixture events: a file whose path `nope.rs` resolves to nothing,
followed by a valid sibling edit of `b.rs`. -/
def exEventsC6 : List XmlEvent :=
  [.startTag "file" [("path", "nope.rs")], .endTag "file",
   .startTag "file" [("path", "b.rs")], .startTag "part" [("id", "1")],
   .text "Y".data, .endTag "file"]

/-- C6 counterexample.  A batch containing an unresolvable file and a
valid sibling: the run aborts with `IoError` and the sibling `b.rs` is
never applied (the filesystem is unchanged), contradicting the claimed
per-file `UnresolvedPath` failure that continues with the remaining
files. -/
theorem press_c6_counterexample :
    processEvents ["b.rs"] "out" false 1 initState exFsB 0 [] exEventsC6
      = ⟨exFsB, 0, some .ioError, []⟩ := by decide

/-- The filesystem after the fixture run that modified `a.rs` and
created `b.rs` via a `new_file` element. -/
def exRunFs : Fs := (saveIndividualFiles exEventsAB "out" true ["a.rs"] 1 exFsA).fs

/-- The filesystem after rolling back that run. -/
def exRollbackFs : Fs := (rollbackLastRun "out" exRunFs).1

/-- C4 (code bug).  After a run that modified `a.rs` and created
`b.rs`, rollback restores `a.rs` byte-for-byte and deletes the record
and backup directory — but `b.rs` is still on disk: the writer's
"track new files created during the run" loop only scans
`original_paths` (all of which still exist), so a file created from a
`new_file` element is never recorded in `new_files` and rollback never
deletes it, contradicting the claim (and the loop's own comment). -/
theorem press_c4_rollback_code_bug :
    fsReadText exRunFs "a.rs" = some "new".data
      ∧ fsReadText exRunFs "b.rs" = some "B".data
      ∧ (rollbackLastRun "out" exRunFs).2 = none
      ∧ fsReadText exRollbackFs "a.rs" = some "old".data
      ∧ fsReadText exRollbackFs "b.rs" = some "B".data
      ∧ dirExists exRollbackFs "out/.rollback" = false
      ∧ fsRead exRollbackFs "out/.rollback/rollback.toml" = none :=
  ⟨by decide, by decide, by decide, by decide, by decide, by decide, by decide⟩

/-- Fixture: the preprocessed-prompt events for one file `a.rs` with a
single part. -/
def exPromptA : List XmlEvent :=
  [.startTag "file" [("path", "a.rs")], .startTag "part" [("id", "1")],
   .cdata "x".data, .endTag "part", .endTag "file"]

/-- C8 counterexample.  Filtering with a selection that maps `a.rs` to
the empty part set yields no parts but keeps the file's element
(`<file path="a.rs"></file>`) in the output: the file is not dropped
from the filtered set as claimed. -/
theorem press_c8_counterexample :
    filterEvents [("a.rs", [])] none [] false [] exPromptA
        = .ok [XmlEvent.startTag "file" [("path", "a.rs")], XmlEvent.endTag "file"]
      ∧ filterEvents [("a.rs", [])] none [] false [] exPromptA ≠ .ok [] := by
  refine ⟨rfl, ?_⟩
  rw [show filterEvents [("a.rs", [])] none [] false [] exPromptA
      = .ok [XmlEvent.startTag "file" [("path", "a.rs")], XmlEvent.endTag "file"] from rfl]
  simp

/-- A well-formed single-file block of the preprocessed prompt, in the
shape `read_and_format_file` emits: the file start tag carrying the
path, one part element per `(id-attribute, body)` pair, and the
closing tag. -/
def fileBlock (path : String) (parts : List (String × List Char)) : List XmlEvent :=
  XmlEvent.startTag "file" [("path", path)]
    :: ((parts.map (fun pc =>
          [XmlEvent.startTag "part" [("id", pc.1)], XmlEvent.cdata pc.2,
           XmlEvent.endTag "part"])).flatten
        ++ [XmlEvent.endTag "file"])

theorem filterEvents_part_start_empty (sel : List (String × List Nat)) (cfp ids : String)
    (i : Nat) (hi : charsToNat? ids.data = some i) (out more : List XmlEvent) :
    filterEvents sel (some cfp) [] false out (XmlEvent.startTag "part" [("id", ids)] :: more)
      = filterEvents sel (some cfp) [] false out more := by
  simp [filterEvents, partAttrLoop, hi]

theorem filterEvents_part_start_nofile (sel : List (String × List Nat))
    (cparts : List Nat) (attrs : List (String × String)) (out more : List XmlEvent) :
    filterEvents sel none cparts false out (XmlEvent.startTag "part" attrs :: more)
      = filterEvents sel none cparts false out more := by
  simp [filterEvents]

theorem filterEvents_cdata_not_req (sel : List (String × List Nat)) (cfp : Option String)
    (cparts : List Nat) (t : List Char) (out more : List XmlEvent) :
    filterEvents sel cfp cparts false out (XmlEvent.cdata t :: more)
      = filterEvents sel cfp cparts false out more := by
  simp [filterEvents]

theorem filterEvents_end_part_not_req (sel : List (String × List Nat)) (cfp : Option String)
    (cparts : List Nat) (out more : List XmlEvent) :
    filterEvents sel cfp cparts false out (XmlEvent.endTag "part" :: more)
      = filterEvents sel cfp cparts false out more := by
  simp [filterEvents]

theorem filterEvents_body_empty (sel : List (String × List Nat)) (cfp : String)
    (parts : List (String × List Char)) (out rest : List XmlEvent)
    (hids : ∀ pc ∈ parts, (charsToNat? pc.1.data).isSome = true) :
    filterEvents sel (some cfp) [] false out
        ((parts.map (fun pc =>
          [XmlEvent.startTag "part" [("id", pc.1)], XmlEvent.cdata pc.2,
           XmlEvent.endTag "part"])).flatten ++ rest)
      = filterEvents sel (some cfp) [] false out rest := by
  induction parts generalizing out with
  | nil => rfl
  | cons pc ps ih =>
    obtain ⟨ids, body⟩ := pc
    obtain ⟨i, hi⟩ : ∃ i, charsToNat? ids.data = some i :=
      Option.isSome_iff_exists.mp (hids (ids, body) (List.mem_cons_self _ _))
    simp only [List.map_cons, List.flatten_cons, List.cons_append, List.append_assoc]
    rw [filterEvents_part_start_empty sel cfp ids i hi]
    rw [filterEvents_cdata_not_req, filterEvents_end_part_not_req]
    exact ih out (fun pc hpc => hids pc (List.mem_cons_of_mem _ hpc))

theorem filterEvents_body_nofile (sel : List (String × List Nat))
    (parts : List (String × List Char)) (out rest : List XmlEvent) :
    filterEvents sel none [] false out
        ((parts.map (fun pc =>
          [XmlEvent.startTag "part" [("id", pc.1)], XmlEvent.cdata pc.2,
           XmlEvent.endTag "part"])).flatten ++ rest)
      = filterEvents sel none [] false out rest := by
  induction parts generalizing out with
  | nil => rfl
  | cons pc ps ih =>
    obtain ⟨ids, body⟩ := pc
    simp only [List.map_cons, List.flatten_cons, List.cons_append, List.append_assoc]
    rw [filterEvents_part_start_nofile, filterEvents_cdata_not_req,
      filterEvents_end_part_not_req]
    exact ih out

/-- C8 (amended).  For a selection entry mapping a known file to the
empty part set, filtering a well-formed block of that file yields no
parts and no text — but the file's enclosing start and end tags remain
in the output (the file is not dropped).  A file whose path is not a
key of the selection is dropped entirely. -/
theorem press_c8_empty_selection (sel : List (String × List Nat)) (path : String)
    (parts : List (String × List Char)) :
    (lookupSel sel path = some [] →
        (∀ pc ∈ parts, (charsToNat? pc.1.data).isSome = true) →
        filterEvents sel none [] false [] (fileBlock path parts)
          = .ok [XmlEvent.startTag "file" [("path", path)], XmlEvent.endTag "file"])
      ∧ (lookupSel sel path = none →
        filterEvents sel none [] false [] (fileBlock path parts) = .ok []) := by
  constructor
  · intro hsel hids
    have h0 : filterEvents sel none [] false [] (fileBlock path parts)
        = filterEvents sel (some path) [] false [XmlEvent.startTag "file" [("path", path)]]
            ((parts.map (fun pc =>
              [XmlEvent.startTag "part" [("id", pc.1)], XmlEvent.cdata pc.2,
               XmlEvent.endTag "part"])).flatten ++ [XmlEvent.endTag "file"]) := by
      simp [fileBlock, filterEvents, fileAttrLoop, hsel]
    rw [h0, filterEvents_body_empty sel path parts _ _ hids]
    simp [filterEvents]
  · intro hsel
    have h0 : filterEvents sel none [] false [] (fileBlock path parts)
        = filterEvents sel none [] false []
            ((parts.map (fun pc =>
              [XmlEvent.startTag "part" [("id", pc.1)], XmlEvent.cdata pc.2,
               XmlEvent.endTag "part"])).flatten ++ [XmlEvent.endTag "file"]) := by
      simp [fileBlock, filterEvents, fileAttrLoop, hsel]
    rw [h0, filterEvents_body_nofile]
    simp [filterEvents]

theorem press_c8_empty_selection_witness :
    (lookupSel [("a.rs", [])] "a.rs" = some []
        ∧ (∀ pc ∈ [("1", "x".data)], (charsToNat? pc.1.data).isSome = true)
        ∧ filterEvents [("a.rs", [])] none [] false [] (fileBlock "a.rs" [("1", "x".data)])
            = .ok [XmlEvent.startTag "file" [("path", "a.rs")], XmlEvent.endTag "file"])
      ∧ (lookupSel [] "a.rs" = none
        ∧ filterEvents [] none [] false [] (fileBlock "a.rs" [("1", "x".data)]) = .ok []) :=
  ⟨⟨by decide, by decide,
    (press_c8_empty_selection [("a.rs", [])] "a.rs" [("1", "x".data)]).1 (by decide) (by decide)⟩,
   ⟨by decide, (press_c8_empty_selection [] "a.rs" [("1", "x".data)]).2 (by decide)⟩⟩

theorem directlyIn_joinPath_joinPath (out sub name : String) :
    directlyIn out (joinPath (joinPath out sub) name) = false := by
  unfold directlyIn joinPath
  show ((out.data ++ ['/']).isPrefixOf ((out.data ++ '/' :: sub.data) ++ '/' :: name.data)
      && !((((out.data ++ '/' :: sub.data) ++ '/' :: name.data).drop (out.data.length + 1)).contains '/'))
    = false
  have hdata : ((out.data ++ '/' :: sub.data) ++ '/' :: name.data)
      = (out.data ++ ['/']) ++ (sub.data ++ '/' :: name.data) := by simp
  rw [hdata]
  have hlen : (out.data ++ ['/']).length = out.data.length + 1 := by simp
  rw [← hlen, List.drop_left]
  have hcontains : ((sub.data ++ '/' :: name.data).contains '/') = true := by simp
  rw [hcontains]
  simp

theorem readAll_mem (fs : Fs) :
    ∀ (l : List String) (cs : List (String × List Char)),
    readAll fs l = some cs → ∀ x ∈ cs, x.1 ∈ l ∧ fsReadText fs x.1 = some x.2 := by
  intro l
  induction l with
  | nil =>
    intro cs h x hx
    simp [readAll] at h
    subst h
    simp at hx
  | cons p ps ih =>
    intro cs h x hx
    unfold readAll at h
    cases hr : fsReadText fs p with
    | none => rw [hr] at h; simp at h
    | some c =>
      rw [hr] at h
      obtain ⟨rest, hrest, hcs⟩ := Option.map_eq_some'.mp h
      subst hcs
      rcases List.mem_cons.mp hx with hx | hx
      · subst hx
        exact ⟨List.mem_cons_self _ _, hr⟩
      · obtain ⟨h1, h2⟩ := ih rest hrest x hx
        exact ⟨List.mem_cons_of_mem _ h1, h2⟩

theorem readAll_keys (fs : Fs) :
    ∀ (l : List String) (cs : List (String × List Char)),
    readAll fs l = some cs → cs.map Prod.fst = l := by
  intro l
  induction l with
  | nil =>
    intro cs h
    simp [readAll] at h
    subst h
    rfl
  | cons p ps ih =>
    intro cs h
    unfold readAll at h
    cases hr : fsReadText fs p with
    | none => rw [hr] at h; simp at h
    | some c =>
      rw [hr] at h
      obtain ⟨rest, hrest, hcs⟩ := Option.map_eq_some'.mp h
      subst hcs
      simp [ih rest hrest]

theorem backupLoop_noop (rdir : String) :
    ∀ (l : List (String × List Char)) (fs : Fs),
    (∀ x ∈ l, fsReadText fs x.1 = some x.2) →
    backupLoop rdir fs l = (fs, [], [], true) := by
  intro l
  induction l with
  | nil => intro fs _; rfl
  | cons pc rest ih =>
    intro fs h
    obtain ⟨p, o⟩ := pc
    have hp : fsReadText fs p = some o := h (p, o) (List.mem_cons_self _ _)
    have hrest := ih fs (fun x hx => h x (List.mem_cons_of_mem _ hx))
    simp [backupLoop, hp, hrest]

/-- C10.  Running `save_individual_files` against an existing output
directory removes every regular file directly inside it even when the
response produces no file edits at all (here: an empty event stream);
after the run, no direct child file of the output directory remains
(the rollback record lands in the `.rollback` subdirectory, not
directly inside). -/
theorem press_c10_clear_output_dir (fs : Fs) (outDir : String) (auto : Bool)
    (origs : List String) (csize : Nat) (p : String)
    (hdir : dirExists fs outDir = true)
    (hp : directlyIn outDir p = true) :
    fsRead (saveIndividualFiles [] outDir auto origs csize fs).fs p = none := by
  have h2 : fsRead (savePrepFs outDir fs) p = none := by
    unfold savePrepFs
    rw [hdir]
    simp only [if_true]
    rw [fsRead_mkDirAll]
    exact fsRead_removeDirectFiles_of fs outDir p hp
  have hne : p ≠ joinPath (joinPath outDir ".rollback") "rollback.toml" := by
    intro heq
    rw [heq, directlyIn_joinPath_joinPath] at hp
    exact absurd hp (by simp)
  simp only [saveIndividualFiles]
  cases hra : readAll (savePrepFs outDir fs) origs with
  | none => exact h2
  | some oc =>
    have hnoop := backupLoop_noop (joinPath outDir ".rollback") oc (savePrepFs outDir fs)
      (fun x hx => (readAll_mem _ origs oc hra x hx).2)
    simp only [processEvents, saveFinish, hnoop, if_true]
    rw [fsRead_fsWrite_ne _ _ _ _ hne]
    exact h2

theorem press_c10_clear_output_dir_witness :
    dirExists ⟨[("out/junk.txt", FData.text "j".data), ("a.rs", FData.text "old".data)], ["out"]⟩ "out" = true
      ∧ directlyIn "out" "out/junk.txt" = true
      ∧ fsRead (saveIndividualFiles [] "out" true ["a.rs"] 50
          ⟨[("out/junk.txt", FData.text "j".data), ("a.rs", FData.text "old".data)], ["out"]⟩).fs
          "out/junk.txt" = none :=
  ⟨by decide, by decide,
   press_c10_clear_output_dir
     ⟨[("out/junk.txt", FData.text "j".data), ("a.rs", FData.text "old".data)], ["out"]⟩
     "out" true ["a.rs"] 50 "out/junk.txt" (by decide) (by decide)⟩

/-- The trace component of a step outcome. -/
def StepRes.traceOf : StepRes → List TEvent
  | .halt r => r.trace
  | .next _ _ _ tr => tr

theorem stepEvent_traceOf (origs : List String) (outDir : String) (auto : Bool)
    (csize : Nat) (st : PState) (fs : Fs) (saved : Nat) (tr : List TEvent) (e : XmlEvent) :
    (stepEvent origs outDir auto csize st fs saved tr e).traceOf = tr
      ∨ ∃ p, (stepEvent origs outDir auto csize st fs saved tr e).traceOf
          = tr ++ [TEvent.applierWrite p] := by
  cases e with
  | startTag name attrs =>
    simp only [stepEvent]
    repeat' split
    all_goals simp [StepRes.traceOf]
  | endTag name =>
    simp only [stepEvent]
    repeat' split
    all_goals simp [StepRes.traceOf]
  | text t =>
    left; rfl
  | cdata t =>
    left; rfl
  | parseErr =>
    left; rfl

theorem processEvents_trace (origs : List String) (outDir : String) (auto : Bool)
    (csize : Nat) :
    ∀ (evs : List XmlEvent) (st : PState) (fs : Fs) (sv : Nat) (tr : List TEvent),
    ∃ add, (processEvents origs outDir auto csize st fs sv tr evs).trace = tr ++ add
      ∧ ∀ x ∈ add, TEvent.isApplier x = true := by
  intro evs
  induction evs with
  | nil =>
    intro st fs sv tr
    exact ⟨[], by simp [processEvents], by simp⟩
  | cons e rest ih =>
    intro st fs sv tr
    have hstep := stepEvent_traceOf origs outDir auto csize st fs sv tr e
    rw [processEvents_cons]
    cases hcase : stepEvent origs outDir auto csize st fs sv tr e with
    | halt r =>
      rw [hcase] at hstep
      simp only [StepRes.traceOf] at hstep
      rcases hstep with h | ⟨p, h⟩
      · exact ⟨[], by simpa using h, by simp⟩
      · exact ⟨[TEvent.applierWrite p], by simpa using h, by simp [TEvent.isApplier]⟩
    | next st₂ fs₂ sv₂ tr₂ =>
      rw [hcase] at hstep
      simp only [StepRes.traceOf] at hstep
      obtain ⟨add, hadd, hall⟩ := ih st₂ fs₂ sv₂ tr₂
      rcases hstep with h | ⟨p, h⟩
      · subst h
        exact ⟨add, hadd, hall⟩
      · refine ⟨TEvent.applierWrite p :: add, ?_, ?_⟩
        · rw [hadd, h]
          simp
        · intro x hx
          rcases List.mem_cons.mp hx with hx | hx
          · subst hx; rfl
          · exact hall x hx

theorem backupLoop_trace (rdir : String) :
    ∀ (l : List (String × List Char)) (fs : Fs),
    ∀ x ∈ (backupLoop rdir fs l).2.2.1, ∃ p, x = TEvent.backupWrite p := by
  intro l
  induction l with
  | nil => intro fs x hx; simp [backupLoop] at hx
  | cons pc rest ih =>
    intro fs x hx
    obtain ⟨p, o⟩ := pc
    cases hr : fsReadText fs p with
    | none =>
      have hE : backupLoop rdir fs ((p, o) :: rest) = (fs, [], [], false) := by
        simp [backupLoop, hr]
      rw [hE] at hx
      simp at hx
    | some newc =>
      by_cases heq : newc = o
      · have hE : backupLoop rdir fs ((p, o) :: rest) = backupLoop rdir fs rest := by
          simp [backupLoop, hr, heq]
        rw [hE] at hx
        exact ih fs x hx
      · have hE : (backupLoop rdir fs ((p, o) :: rest)).2.2.1
            = TEvent.backupWrite (joinPath rdir (fileName p))
              :: (backupLoop rdir (fsWrite fs (joinPath rdir (fileName p)) (FData.text o)) rest).2.2.1 := by
          simp [backupLoop, hr, heq]
        rw [hE] at hx
        rcases List.mem_cons.mp hx with h | h
        · exact ⟨_, h⟩
        · exact ih (fsWrite fs (joinPath rdir (fileName p)) (FData.text o)) x h

theorem backupLoop_frame (rdir : String) :
    ∀ (l : List (String × List Char)) (fs : Fs) (q : String),
    (∀ x ∈ l, q ≠ joinPath rdir (fileName x.1)) →
    fsRead (backupLoop rdir fs l).1 q = fsRead fs q := by
  intro l
  induction l with
  | nil => intro fs q _; rfl
  | cons pc rest ih =>
    intro fs q hq
    obtain ⟨p, o⟩ := pc
    cases hr : fsReadText fs p with
    | none =>
      have hE : (backupLoop rdir fs ((p, o) :: rest)).1 = fs := by
        simp [backupLoop, hr]
      rw [hE]
    | some newc =>
      by_cases heq : newc = o
      · have hE : backupLoop rdir fs ((p, o) :: rest) = backupLoop rdir fs rest := by
          simp [backupLoop, hr, heq]
        rw [hE]
        exact ih fs q (fun x hx => hq x (List.mem_cons_of_mem _ hx))
      · have hE : (backupLoop rdir fs ((p, o) :: rest)).1
            = (backupLoop rdir (fsWrite fs (joinPath rdir (fileName p)) (FData.text o)) rest).1 := by
          simp [backupLoop, hr, heq]
        rw [hE]
        rw [ih _ q (fun x hx => hq x (List.mem_cons_of_mem _ hx))]
        exact fsRead_fsWrite_ne _ _ _ _ (hq (p, o) (List.mem_cons_self _ _))

theorem joinPath_right_inj (r a b : String) (h : joinPath r a = joinPath r b) : a = b := by
  have hd : r.data ++ '/' :: a.data = r.data ++ '/' :: b.data := congrArg String.data h
  have h2 : ('/' :: a.data) = ('/' :: b.data) := List.append_cancel_left hd
  have h3 : a.data = b.data := by injection h2
  calc a = ⟨a.data⟩ := rfl
    _ = ⟨b.data⟩ := by rw [h3]
    _ = b := rfl

theorem backupLoop_pairs (rdir : String) :
    ∀ (l : List (String × List Char)) (fs : Fs),
    (l.map (fun x => fileName x.1)).Nodup →
    ∀ op bp, (op, bp) ∈ (backupLoop rdir fs l).2.1 →
    ∃ c, (op, c) ∈ l ∧ bp = joinPath rdir (fileName op)
      ∧ fsRead (backupLoop rdir fs l).1 bp = some (.text c) := by
  intro l
  induction l with
  | nil => intro fs _ op bp h; simp [backupLoop] at h
  | cons pc rest ih =>
    intro fs hnd op bp hmem
    obtain ⟨p, o⟩ := pc
    rw [List.map_cons, List.nodup_cons] at hnd
    obtain ⟨hnotin, hnd₂⟩ := hnd
    cases hr : fsReadText fs p with
    | none =>
      have hE : backupLoop rdir fs ((p, o) :: rest) = (fs, [], [], false) := by
        simp [backupLoop, hr]
      rw [hE] at hmem
      simp at hmem
    | some newc =>
      by_cases heq : newc = o
      · have hE : backupLoop rdir fs ((p, o) :: rest) = backupLoop rdir fs rest := by
          simp [backupLoop, hr, heq]
        rw [hE] at hmem ⊢
        obtain ⟨c, hcl, hbp, hrd⟩ := ih fs hnd₂ op bp hmem
        exact ⟨c, List.mem_cons_of_mem _ hcl, hbp, hrd⟩
      · have hmem₂ : (op, bp) ∈ (p, joinPath rdir (fileName p))
            :: (backupLoop rdir (fsWrite fs (joinPath rdir (fileName p)) (FData.text o)) rest).2.1 := by
          have hE : (backupLoop rdir fs ((p, o) :: rest)).2.1
              = (p, joinPath rdir (fileName p))
                :: (backupLoop rdir (fsWrite fs (joinPath rdir (fileName p)) (FData.text o)) rest).2.1 := by
            simp [backupLoop, hr, heq]
          rwa [hE] at hmem
        have hfst : (backupLoop rdir fs ((p, o) :: rest)).1
            = (backupLoop rdir (fsWrite fs (joinPath rdir (fileName p)) (FData.text o)) rest).1 := by
          simp [backupLoop, hr, heq]
        rw [hfst]
        rcases List.mem_cons.mp hmem₂ with hh | hh
        · injection hh with hop hbp
          subst hop
          subst hbp
          have hqall : ∀ x ∈ rest, joinPath rdir (fileName op) ≠ joinPath rdir (fileName x.1) := by
            intro x hx heq₂
            exact hnotin (by rw [joinPath_right_inj rdir _ _ heq₂]; exact List.mem_map_of_mem _ hx)
          refine ⟨o, List.mem_cons_self _ _, rfl, ?_⟩
          rw [backupLoop_frame rdir rest _ _ hqall]
          exact fsRead_fsWrite_self _ _ _
        · obtain ⟨c, hcl, hbp, hrd⟩ :=
            ih (fsWrite fs (joinPath rdir (fileName p)) (FData.text o)) hnd₂ op bp hh
          exact ⟨c, List.mem_cons_of_mem _ hcl, hbp, hrd⟩

/-- The rollback pairs recorded on disk after a run: the
`rollback_files` field of the `rollback.toml` record under the output
directory. -/
def rollbackPairs (fs : Fs) (outDir : String) : List (String × String) :=
  match fsRead fs (joinPath (joinPath outDir ".rollback") "rollback.toml") with
  | some (.rollback _ pairs) => pairs
  | _ => []

theorem fsReadText_savePrepFs (fs : Fs) (outDir p : String)
    (hp : directlyIn outDir p = false) :
    fsReadText (savePrepFs outDir fs) p = fsReadText fs p := by
  unfold savePrepFs
  rw [fsReadText_mkDirAll]
  by_cases hd : dirExists fs outDir
  · rw [if_pos hd]
    unfold fsReadText
    rw [fsRead_removeDirectFiles_of_not _ _ _ hp]
  · rw [if_neg hd, fsReadText_mkDirAll]

/-- C3 counterexample.  In a run that modifies `a.rs`, the very first
disk write of the trace is the applier's write to `a.rs`; the backup
of `a.rs` and the rollback record are persisted only afterwards.  The
claimed order — snapshot persisted before any applier write — is
therefore false. -/
theorem press_c3_counterexample :
    (saveIndividualFiles exEventsAB "out" true ["a.rs"] 1 exFsA).trace
        = [TEvent.applierWrite "a.rs", TEvent.applierWrite "b.rs",
           TEvent.backupWrite "out/.rollback/a.rs", TEvent.recordWrite]
      ∧ (saveIndividualFiles exEventsAB "out" true ["a.rs"] 1 exFsA).trace.head?
          = some (TEvent.applierWrite "a.rs")
      ∧ TEvent.backupWrite "out/.rollback/a.rs"
          ∈ (saveIndividualFiles exEventsAB "out" true ["a.rs"] 1 exFsA).trace :=
  ⟨by decide, by decide, by decide⟩

/-- C3 (amended).  The run captures pre-write contents in memory before
the applier writes, but persists them afterwards: in every successful
run (over originals with pairwise distinct basenames, none called
`rollback.toml`, none directly inside the output directory) the write
trace is all applier writes followed by all backup/record writes, and
each backup file recorded in `rollback.toml` holds exactly the pre-run
content of its original. -/
theorem press_c3_snapshot_order (events : List XmlEvent) (outDir : String) (auto : Bool)
    (origs : List String) (csize : Nat) (fs0 : Fs)
    (hnodup : (origs.map fileName).Nodup)
    (hnotoml : ∀ p ∈ origs, fileName p ≠ "rollback.toml")
    (hout : ∀ p ∈ origs, directlyIn outDir p = false)
    (herr : (saveIndividualFiles events outDir auto origs csize fs0).err = none) :
    (∃ A B, (saveIndividualFiles events outDir auto origs csize fs0).trace = A ++ B
        ∧ (∀ x ∈ A, TEvent.isApplier x = true)
        ∧ (∀ x ∈ B, TEvent.isApplier x = false))
      ∧ (∀ op bp,
          (op, bp) ∈ rollbackPairs (saveIndividualFiles events outDir auto origs csize fs0).fs outDir →
          ∃ c, fsReadText fs0 op = some c
            ∧ fsRead (saveIndividualFiles events outDir auto origs csize fs0).fs bp
                = some (.text c)) := by
  cases hra : readAll (savePrepFs outDir fs0) origs with
  | none =>
    have hsave : saveIndividualFiles events outDir auto origs csize fs0
        = ⟨savePrepFs outDir fs0, 0, some .ioError, []⟩ := by
      simp [saveIndividualFiles, hra]
    rw [hsave] at herr
    simp at herr
  | some oc =>
    cases hre : (processEvents origs outDir auto csize initState (savePrepFs outDir fs0) 0 [] events).err with
    | some e =>
      have hsave : saveIndividualFiles events outDir auto origs csize fs0
          = processEvents origs outDir auto csize initState (savePrepFs outDir fs0) 0 [] events := by
        simp [saveIndividualFiles, hra, hre]
      rw [hsave] at herr
      rw [herr] at hre
      simp at hre
    | none =>
      have hsave : saveIndividualFiles events outDir auto origs csize fs0
          = saveFinish outDir origs
              (processEvents origs outDir auto csize initState (savePrepFs outDir fs0) 0 [] events) oc := by
        simp [saveIndividualFiles, hra, hre]
      rw [hsave] at herr ⊢
      cases hok : (backupLoop (joinPath outDir ".rollback")
          (processEvents origs outDir auto csize initState (savePrepFs outDir fs0) 0 [] events).fs oc).2.2.2 with
      | false =>
        have hfin : (saveFinish outDir origs
            (processEvents origs outDir auto csize initState (savePrepFs outDir fs0) 0 [] events) oc).err
            = some .ioError := by
          simp [saveFinish, hok]
        rw [hfin] at herr
        simp at herr
      | true =>
        have hfin : saveFinish outDir origs
            (processEvents origs outDir auto csize initState (savePrepFs outDir fs0) 0 [] events) oc
            = ⟨fsWrite (backupLoop (joinPath outDir ".rollback")
                  (processEvents origs outDir auto csize initState (savePrepFs outDir fs0) 0 [] events).fs oc).1
                (joinPath (joinPath outDir ".rollback") "rollback.toml")
                (FData.rollback
                  (origs.filter (fun p => !(fileExists (backupLoop (joinPath outDir ".rollback")
                    (processEvents origs outDir auto csize initState (savePrepFs outDir fs0) 0 [] events).fs oc).1 p)))
                  (backupLoop (joinPath outDir ".rollback")
                    (processEvents origs outDir auto csize initState (savePrepFs outDir fs0) 0 [] events).fs oc).2.1),
               (processEvents origs outDir auto csize initState (savePrepFs outDir fs0) 0 [] events).saved,
               none,
               (processEvents origs outDir auto csize initState (savePrepFs outDir fs0) 0 [] events).trace
                 ++ (backupLoop (joinPath outDir ".rollback")
                    (processEvents origs outDir auto csize initState (savePrepFs outDir fs0) 0 [] events).fs oc).2.2.1
                 ++ [TEvent.recordWrite]⟩ := by
          simp [saveFinish, hok]
        rw [hfin]
        have hnodup₂ : (oc.map (fun x => fileName x.1)).Nodup := by
          have hkeys := readAll_keys (savePrepFs outDir fs0) origs oc hra
          have hmap : oc.map (fun x => fileName x.1) = origs.map fileName := by
            rw [← hkeys, List.map_map]
            rfl
          rw [hmap]
          exact hnodup
        constructor
        · obtain ⟨add, hadd, hall⟩ := processEvents_trace origs outDir auto csize events
            initState (savePrepFs outDir fs0) 0 []
          refine ⟨(processEvents origs outDir auto csize initState (savePrepFs outDir fs0) 0 [] events).trace,
            (backupLoop (joinPath outDir ".rollback")
              (processEvents origs outDir auto csize initState (savePrepFs outDir fs0) 0 [] events).fs oc).2.2.1
              ++ [TEvent.recordWrite], by simp, ?_, ?_⟩
          · intro x hx
            rw [hadd] at hx
            exact hall x (by simpa using hx)
          · intro x hx
            rcases List.mem_append.mp hx with hx | hx
            · obtain ⟨p, hp⟩ := backupLoop_trace (joinPath outDir ".rollback") oc _ x hx
              subst hp
              rfl
            · rcases List.mem_singleton.mp hx with rfl
              rfl
        · intro op bp hpair
          have hpairs_eq : rollbackPairs
              (fsWrite (backupLoop (joinPath outDir ".rollback")
                  (processEvents origs outDir auto csize initState (savePrepFs outDir fs0) 0 [] events).fs oc).1
                (joinPath (joinPath outDir ".rollback") "rollback.toml")
                (FData.rollback
                  (origs.filter (fun p => !(fileExists (backupLoop (joinPath outDir ".rollback")
                    (processEvents origs outDir auto csize initState (savePrepFs outDir fs0) 0 [] events).fs oc).1 p)))
                  (backupLoop (joinPath outDir ".rollback")
                    (processEvents origs outDir auto csize initState (savePrepFs outDir fs0) 0 [] events).fs oc).2.1))
              outDir
            = (backupLoop (joinPath outDir ".rollback")
                (processEvents origs outDir auto csize initState (savePrepFs outDir fs0) 0 [] events).fs oc).2.1 := by
            unfold rollbackPairs
            rw [fsRead_fsWrite_self]
          rw [hpairs_eq] at hpair
          obtain ⟨c, hcl, hbp, hread⟩ := backupLoop_pairs (joinPath outDir ".rollback") oc _ hnodup₂ op bp hpair
          obtain ⟨hopin, hoprd⟩ := readAll_mem (savePrepFs outDir fs0) origs oc hra (op, c) hcl
          refine ⟨c, ?_, ?_⟩
          · rw [← fsReadText_savePrepFs fs0 outDir op (hout op hopin)]
            exact hoprd
          · have hne : bp ≠ joinPath (joinPath outDir ".rollback") "rollback.toml" := by
              rw [hbp]
              intro habs
              exact hnotoml op hopin (joinPath_right_inj _ _ _ habs)
            rw [fsRead_fsWrite_ne _ _ _ _ hne]
            exact hread

theorem press_c3_snapshot_order_witness :
    (saveIndividualFiles exEventsAB "out" true ["a.rs"] 1 exFsA).err = none
      ∧ ((∃ A B, (saveIndividualFiles exEventsAB "out" true ["a.rs"] 1 exFsA).trace = A ++ B
            ∧ (∀ x ∈ A, TEvent.isApplier x = true)
            ∧ (∀ x ∈ B, TEvent.isApplier x = false))
        ∧ (∀ op bp,
            (op, bp) ∈ rollbackPairs (saveIndividualFiles exEventsAB "out" true ["a.rs"] 1 exFsA).fs "out" →
            ∃ c, fsReadText exFsA op = some c
              ∧ fsRead (saveIndividualFiles exEventsAB "out" true ["a.rs"] 1 exFsA).fs bp
                  = some (.text c))) :=
  ⟨by decide,
   press_c3_snapshot_order exEventsAB "out" true ["a.rs"] 1 exFsA
     (by decide) (by decide) (by decide) (by decide)⟩

end Press

